import Mathlib

/-!
Shallow embedding of the SIE ledger-file reader (src/main.rs) and proofs of the
specification claims about it.

Modelling conventions:
* Rust `String` values are embedded as `List Char`; lines of the input file are
  given as a `List (List Char)` (the surrounding `lines()` split and the
  Windows-1252 byte decoding are I/O boundary concerns outside this core).
* Rust `f64` amounts are embedded as exact rationals (`ℚ`); the decimal literal
  grammar accepted by `str::parse::<f64>` is modelled exactly on finite decimal
  and exponent forms, while non-finite spellings (`inf`, `NaN`) are treated as
  unparseable.  Floating-point rounding itself is out of scope of this
  embedding.
* Rust `u32` is embedded as `Nat` with the `< 2^32` bound enforced at parse
  time (overflowing literals fail to parse, hence default to 0, exactly as
  `unwrap_or(0)` does).
* A Rust panic (out-of-bounds slice index) is embedded as `Option.none`
  propagating through the parse, so `parse_sie_file = none` means the program
  aborts on that input.
-/

set_option allowUnsafeReducibility true in
attribute [semireducible] Rat.add Rat.mul Rat.sub Rat.inv Rat.ofScientific

/-- Embedding of the Rust `Account` struct. -/
structure Account where
  number : Nat
  name : List Char
  in_balance : ℚ
  out_balance : ℚ
  deriving DecidableEq, Repr

/-- Embedding of the Rust `Transaction` struct. -/
structure Transaction where
  account : Nat
  amount : ℚ
  deriving DecidableEq, Repr

/-- Embedding of the Rust `Verification` struct. -/
structure Verification where
  serie : List Char
  number : Nat
  date : List Char
  text : List Char
  transactions : List Transaction
  deriving DecidableEq, Repr

/-- Convenience conversion from a Lean string literal to the `List Char`
representation used throughout the embedding. -/
def str (s : String) : List Char :=
  s.toList

/-- The Unicode White_Space property, which is what Rust's `str::trim` strips. -/
def isRustWs (c : Char) : Bool :=
  [0x9, 0xA, 0xB, 0xC, 0xD, 0x20, 0x85, 0xA0, 0x1680,
   0x2000, 0x2001, 0x2002, 0x2003, 0x2004, 0x2005, 0x2006, 0x2007,
   0x2008, 0x2009, 0x200A, 0x2028, 0x2029, 0x202F, 0x205F, 0x3000].contains c.toNat

/-- Remove every leading and trailing character satisfying `p`, the behaviour of
Rust's `str::trim_matches` (which removes matching prefixes and suffixes
repeatedly). -/
def trimBy (p : Char → Bool) (l : List Char) : List Char :=
  ((l.dropWhile p).reverse.dropWhile p).reverse

/-- Embedding of `s.trim_matches('"')`. -/
def trimQuotes (l : List Char) : List Char :=
  trimBy (fun c => c == '"') l

/-- Embedding of `str::trim` (strip leading/trailing Unicode whitespace). -/
def trimWs (l : List Char) : List Char :=
  trimBy isRustWs l

/-- Embedding of Rust `str::replace(src, tgt)` where `src` is a single char and
`tgt` a single-char string. -/
def replaceChar (src tgt : Char) (l : List Char) : List Char :=
  l.map fun c => if c == src then tgt else c

/-- Embedding of `clean_string` from src/main.rs: trim all leading/trailing
quote characters, trim whitespace, then the six chained `replace` calls in
source order („→ä, ”→ö, ™→Ö, †→å, U+008F→Å, U+FFFD→?). -/
def clean_string (l : List Char) : List Char :=
  replaceChar '�' '?'
    (replaceChar '\x8F' 'Å'
      (replaceChar '†' 'å'
        (replaceChar '™' 'Ö'
          (replaceChar '”' 'ö'
            (replaceChar '„' 'ä'
              (trimWs (trimQuotes l)))))))

/-- The fixed substitution table of the cleanup, as (source, replacement)
pairs in source order. -/
def substTable : List (Char × Char) :=
  [('„', 'ä'), ('”', 'ö'), ('™', 'Ö'), ('†', 'å'),
   ('\x8F', 'Å'), ('�', '?')]

/-- Single left-to-right-pass character substitution by `substTable`. -/
def substChar (c : Char) : Char :=
  (((substTable.find? fun p => p.1 == c).map Prod.snd).getD c)

/-- Amended specification-style cleanup: strip all leading/trailing quote
characters, strip surrounding whitespace, then apply the substitution table as
one pass over the characters. -/
def cleanStringAmended (l : List Char) : List Char :=
  (trimWs (trimQuotes l)).map substChar

/-- Cleanup exactly as the claim words it: strip exactly ONE layer of
leading/trailing quote characters if present, then whitespace, then the
substitution table. -/
def stripOneQuoteLayer (l : List Char) : List Char :=
  let l1 := if l.head? == some '"' then l.tail else l
  if l1.getLast? == some '"' then l1.dropLast else l1

/-- Cleanup following the claim's one-layer reading, for comparison with the
source's `clean_string`. -/
def cleanStringOneLayer (l : List Char) : List Char :=
  (trimWs (stripOneQuoteLayer l)).map substChar

/-- Worker of the tokenizer `parse_line`: `inq` is the `inside_quote` flag,
`cur` the field accumulated so far. -/
def parse_line_aux : Bool → List Char → List Char → List (List Char)
  | _, cur, [] => [cur]
  | inq, cur, c :: rest =>
    if c = '"' then
      parse_line_aux (!inq) cur rest
    else if c = ' ' then
      if inq then
        parse_line_aux inq (cur ++ [c]) rest
      else
        cur :: parse_line_aux inq [] rest
    else
      parse_line_aux inq (cur ++ [c]) rest

/-- Embedding of `parse_line` from src/main.rs. -/
def parse_line (s : List Char) : List (List Char) :=
  parse_line_aux false [] s

/-- The quote-toggle state after reading `s` starting in state `inq`. -/
def quoteState (inq : Bool) (s : List Char) : Bool :=
  s.foldl (fun q c => if c = '"' then !q else q) inq

/-- Digits-only reading of a numeral (used by both numeric parsers). Returns
`none` unless the list is nonempty and all decimal digits. -/
def digitsVal? : List Char → Option Nat
  | [] => none
  | [c] => if c.isDigit then some (c.toNat - '0'.toNat) else none
  | c :: rest => do
    let v ← digitsVal? rest
    if c.isDigit then some ((c.toNat - '0'.toNat) * 10 ^ rest.length + v) else none

/-- Embedding of `str::parse::<u32>()`: an optional `+` sign, one or more
digits, and the value must fit in 32 bits. -/
def parseU32 (l : List Char) : Option Nat := do
  let body := match l with
    | '+' :: rest => rest
    | _ => l
  let v ← digitsVal? body
  if v < 2 ^ 32 then some v else none

/-- Embedding of `parts[i].parse::<u32>().unwrap_or(0)`. -/
def parseU32D (l : List Char) : Nat :=
  (parseU32 l).getD 0

/-- Exponent part of the f64 grammar: `(e|E) Sign? Digit+`, returning the
signed exponent. -/
def parseExp? : List Char → Option Int
  | [] => some 0
  | e :: rest =>
    if e = 'e' ∨ e = 'E' then
      match rest with
      | '+' :: ds => (digitsVal? ds).map Int.ofNat
      | '-' :: ds => (digitsVal? ds).map fun n => -(Int.ofNat n)
      | ds => (digitsVal? ds).map Int.ofNat
    else none

/-- Embedding of the finite-number part of `str::parse::<f64>()`, with the
value taken exactly as a rational.  Grammar: `Sign? Number`,
`Number ::= Digit+ ('.' Digit*)? Exp? | '.' Digit+ Exp?`,
`Exp ::= (e|E) Sign? Digit+`.  The non-finite spellings `inf`/`infinity`/`NaN`
have no rational value and are treated as unparseable here. -/
def parseF64 (l : List Char) : Option ℚ := do
  let (sign, body) : ℚ × List Char := match l with
    | '+' :: rest => (1, rest)
    | '-' :: rest => (-1, rest)
    | _ => (1, l)
  let intPart := body.takeWhile Char.isDigit
  let afterInt := body.dropWhile Char.isDigit
  match afterInt with
  | '.' :: rest =>
    let fracPart := rest.takeWhile Char.isDigit
    let afterFrac := rest.dropWhile Char.isDigit
    if intPart.isEmpty ∧ fracPart.isEmpty then none
    else do
      let iv ← if intPart.isEmpty then pure 0 else digitsVal? intPart
      let fv ← if fracPart.isEmpty then pure 0 else digitsVal? fracPart
      let e ← parseExp? afterFrac
      let mant : ℚ := (iv : ℚ) + (fv : ℚ) / (10 ^ fracPart.length : ℚ)
      some (sign * mant * (10 : ℚ) ^ e)
  | _ => do
    let iv ← digitsVal? intPart
    if afterInt.isEmpty ∨ afterInt.head? = some 'e' ∨ afterInt.head? = some 'E' then
      let e ← parseExp? afterInt
      some (sign * (iv : ℚ) * (10 : ℚ) ^ e)
    else none

/-- Embedding of `parts[i].parse::<f64>().unwrap_or(0.0)`. -/
def parseF64D (l : List Char) : ℚ :=
  (parseF64 l).getD 0

/-- Embedding of Rust `line.starts_with(pre)` on the char-list representation. -/
def lineStarts : List Char → List Char → Bool
  | _, [] => true
  | [], _ :: _ => false
  | c :: s, p :: ps => c == p && lineStarts s ps

/-- Embedding of `find_account` from src/main.rs: index of the first account
whose number matches, scanning in creation order. -/
def find_account : List Account → Nat → Option Nat
  | [], _ => none
  | a :: rest, n =>
    if a.number = n then some 0
    else (find_account rest n).map (· + 1)

/-- Add `amt` to the `out_balance` of the account at index `idx` (the effect of
`accounts[idx].out_balance += transaction.amount`). -/
def addOutAt : List Account → Nat → ℚ → List Account
  | [], _, _ => []
  | a :: rest, 0, amt => { a with out_balance := a.out_balance + amt } :: rest
  | a :: rest, n + 1, amt => a :: addOutAt rest n amt

/-- Set the `in_balance` of the account at index `idx` (the effect of
`accounts[idx].in_balance = amount`). -/
def setInAt : List Account → Nat → ℚ → List Account
  | [], _, _ => []
  | a :: rest, 0, amt => { a with in_balance := amt } :: rest
  | a :: rest, n + 1, amt => a :: setInAt rest n amt

/-- One iteration of the inner reconciliation loop: post one transaction
against the first account whose number matches (an unmatched account number is
a reported anomaly with no effect on balances). -/
def applyTransaction (accs : List Account) (t : Transaction) : List Account :=
  match find_account accs t.account with
  | some idx => addOutAt accs idx t.amount
  | none => accs

/-- Embedding of `calculate_out_balances` from src/main.rs: first reset every
closing balance to the opening balance, then post every transaction of every
verification in file order. -/
def calculate_out_balances (accounts : List Account) (verifications : List Verification) :
    List Account :=
  verifications.foldl (fun accs v => v.transactions.foldl applyTransaction accs)
    (accounts.map fun a => { a with out_balance := a.in_balance })

/-- The mutable state of the record-parsing loop in `parse_sie_file`. -/
structure ParseState where
  verifications : List Verification
  accounts : List Account
  current_ver : Option Verification
  deriving DecidableEq, Repr

/-- Initial parse state: nothing parsed, no verification open. -/
def initState : ParseState :=
  ⟨[], [], none⟩

/-- One iteration of the line loop of `parse_sie_file`.  `none` models a Rust
panic (an out-of-bounds `parts[i]` index). -/
def processLine (st : ParseState) (line : List Char) : Option ParseState :=
  if lineStarts line (str "#VER") then
    let st' : ParseState :=
      match st.current_ver with
      | some v => { st with verifications := st.verifications ++ [v], current_ver := none }
      | none => st
    let parts := parse_line line
    do
      let p1 ← parts[1]?
      let p2 ← parts[2]?
      let p3 ← parts[3]?
      let p4 ← parts[4]?
      let newVer : Verification :=
        { serie := clean_string p1
          number := parseU32D p2
          date := clean_string p3
          text := clean_string p4
          transactions := [] }
      some { st' with current_ver := some newVer }
  else if lineStarts line (str "#IB") then
    let parts := parse_line line
    do
      let p1 ← parts[1]?
      let p2 ← parts[2]?
      let p3 ← parts[3]?
      let year := parseU32D p1
      let account_no := parseU32D p2
      let amount := parseF64D p3
      if year = 0 then
        match find_account st.accounts account_no with
        | some idx => some { st with accounts := setInAt st.accounts idx amount }
        | none => some st
      else
        some st
  else if lineStarts line (str "#KONTO") then
    let parts := parse_line line
    do
      let p2 ← parts[2]?
      let p1 ← parts[1]?
      some { st with accounts := st.accounts ++
        [{ number := parseU32D p1
           name := clean_string p2
           in_balance := 0
           out_balance := 0 }] }
  else if lineStarts line (str "#TRANS") then
    match st.current_ver with
    | some v =>
      let parts := parse_line line
      do
        let p1 ← parts[1]?
        let plast ← parts.getLast?
        let t : Transaction := { account := parseU32D p1, amount := parseF64D plast }
        some { st with current_ver := some { v with transactions := v.transactions ++ [t] } }
    | none => some st
  else
    some st

/-- The record-parsing phase of `parse_sie_file`: fold the line loop over the
lines, then flush the still-open verification.  Returns the verification and
account sequences before reconciliation; `none` models a panic. -/
def parse_records (lines : List (List Char)) :
    Option (List Verification × List Account) := do
  let st ← lines.foldlM processLine initState
  let vers := match st.current_ver with
    | some v => st.verifications ++ [v]
    | none => st.verifications
  some (vers, st.accounts)

/-- Embedding of `parse_sie_file` from src/main.rs (minus the file read):
record parsing followed by the reconciliation pass. -/
def parse_sie_file (lines : List (List Char)) :
    Option (List Verification × List Account) := do
  let (vers, accs) ← parse_records lines
  some (vers, calculate_out_balances accs vers)

/-- Sufficient per-line field-count condition under which no `parts[i]` index
of the record parser is out of bounds. -/
def lineArityOK (line : List Char) : Bool :=
  if lineStarts line (str "#VER") then decide (5 ≤ (parse_line line).length)
  else if lineStarts line (str "#IB") then decide (4 ≤ (parse_line line).length)
  else if lineStarts line (str "#KONTO") then decide (3 ≤ (parse_line line).length)
  else if lineStarts line (str "#TRANS") then decide (2 ≤ (parse_line line).length)
  else true

/-! Helper lemmas about the tokenizer. -/

theorem parse_line_aux_ne_nil (s : List Char) (inq : Bool) (cur : List Char) :
    parse_line_aux inq cur s ≠ [] := by
  induction s generalizing inq cur with
  | nil => simp [parse_line_aux]
  | cons c rest ih =>
    simp only [parse_line_aux]
    split
    · exact ih _ _
    · split
      · split
        · exact ih _ _
        · simp
      · exact ih _ _

theorem parse_line_ne_nil (s : List Char) : parse_line s ≠ [] :=
  parse_line_aux_ne_nil s false []

theorem quoteState_cons (inq : Bool) (c : Char) (s : List Char) :
    quoteState inq (c :: s) = quoteState (if c = '"' then !inq else inq) s := by
  simp [quoteState, List.foldl]

theorem parse_line_aux_split (t : List Char) :
    ∀ (s : List Char) (inq : Bool) (cur : List Char), quoteState inq s = false →
      parse_line_aux inq cur (s ++ ' ' :: t) =
        parse_line_aux inq cur s ++ parse_line t := by
  intro s
  induction s with
  | nil =>
    intro inq cur h
    simp only [quoteState, List.foldl] at h
    subst h
    simp [parse_line_aux, parse_line]
  | cons c rest ih =>
    intro inq cur h
    rw [quoteState_cons] at h
    simp only [List.cons_append, parse_line_aux]
    split
    · rename_i hc
      rw [if_pos hc] at h
      exact ih _ _ h
    · rename_i hc
      rw [if_neg hc] at h
      split
      · split
        · exact ih _ _ h
        · rw [show rest.append (' ' :: t) = rest ++ ' ' :: t from rfl, ih _ _ h]
          simp
      · exact ih _ _ h

theorem parse_line_split (s t : List Char) (h : quoteState false s = false) :
    parse_line (s ++ ' ' :: t) = parse_line s ++ parse_line t :=
  parse_line_aux_split t s false [] h

theorem parse_line_aux_no_quote (s : List Char) (inq : Bool) (cur : List Char)
    (hcur : '"' ∉ cur) : ∀ f ∈ parse_line_aux inq cur s, '"' ∉ f := by
  induction s generalizing inq cur with
  | nil =>
    intro f hf
    simp [parse_line_aux] at hf
    subst hf
    exact hcur
  | cons c rest ih =>
    intro f hf
    simp only [parse_line_aux] at hf
    split at hf
    · exact ih _ _ hcur f hf
    · rename_i hq
      split at hf
      · split at hf
        · refine ih _ _ ?_ f hf
          simp [List.mem_append]
          exact ⟨hcur, fun h => hq h.symm⟩
        · rcases List.mem_cons.mp hf with h | h
          · subst h
            exact hcur
          · exact ih _ _ (by simp) f h
      · refine ih _ _ ?_ f hf
        simp [List.mem_append]
        exact ⟨hcur, fun h => hq h.symm⟩

/-- C4: the tokenizer splits on unquoted spaces with quote characters removed
from field values: splitting at an unquoted space is compositional (so every
unquoted space terminates a field and consecutive unquoted spaces yield empty
fields, not collapsed), the final field is emitted unconditionally at end of
line including when it is empty, and no field value contains a quote
character. -/
theorem parse_line_spec :
    (∀ s t : List Char, quoteState false s = false →
        parse_line (s ++ ' ' :: t) = parse_line s ++ parse_line t)
    ∧ (∀ s : List Char, parse_line s ≠ [])
    ∧ (∀ s : List Char, ∀ f ∈ parse_line s, '"' ∉ f)
    ∧ parse_line (str "a  b") = [str "a", [], str "b"]
    ∧ parse_line (str "a ") = [str "a", []] := by
  refine ⟨parse_line_split, parse_line_ne_nil, ?_, by decide, by decide⟩
  intro s f hf
  exact parse_line_aux_no_quote s false [] (by simp) f hf

/-- Witness for `parse_line_spec` at a concrete balanced-quote input. -/
theorem parse_line_spec_witness :
    quoteState false (str "ab") = false ∧
      parse_line (str "ab" ++ ' ' :: str "c d") =
        parse_line (str "ab") ++ parse_line (str "c d") :=
  ⟨by decide, parse_line_spec.1 (str "ab") (str "c d") (by decide)⟩

/-! Helper lemmas about the cleanup pipeline. -/

set_option maxHeartbeats 1000000 in
theorem clean_string_eq_map (l : List Char) : clean_string l = cleanStringAmended l := by
  unfold clean_string cleanStringAmended replaceChar
  simp only [List.map_map]
  refine List.map_congr_left fun c _ => ?_
  simp only [Function.comp_apply]
  by_cases h1 : c = '„'
  · subst h1; decide
  · by_cases h2 : c = '”'
    · subst h2; decide
    · by_cases h3 : c = '™'
      · subst h3; decide
      · by_cases h4 : c = '†'
        · subst h4; decide
        · by_cases h5 : c = '\x8F'
          · subst h5; decide
          · by_cases h6 : c = '�'
            · subst h6; decide
            · simp [substChar, substTable, beq_iff_eq, h1, h2, h3, h4, h5, h6,
                Ne.symm h1, Ne.symm h2, Ne.symm h3, Ne.symm h4, Ne.symm h5, Ne.symm h6]

theorem dropWhile_eq_self_of_head (p : Char → Bool) (l : List Char)
    (h : ∀ c, l.head? = some c → p c = false) : l.dropWhile p = l := by
  cases l with
  | nil => rfl
  | cons c cs => simp [List.dropWhile_cons, h c rfl]

theorem head?_dropWhile_false (p : Char → Bool) (l : List Char) (c : Char)
    (h : (l.dropWhile p).head? = some c) : p c = false := by
  induction l with
  | nil => simp [List.dropWhile] at h
  | cons d ds ih =>
    rw [List.dropWhile_cons] at h
    split at h
    · exact ih h
    · rename_i hd
      simp only [List.head?_cons, Option.some.injEq] at h
      subst h
      exact Bool.not_eq_true _ ▸ (by simpa using hd)

theorem dropWhile_getLast?_of_ne_nil (p : Char → Bool) (l : List Char)
    (h : l.dropWhile p ≠ []) : (l.dropWhile p).getLast? = l.getLast? := by
  induction l with
  | nil => simp [List.dropWhile] at h
  | cons d ds ih =>
    rw [List.dropWhile_cons] at h ⊢
    by_cases hp : p d = true
    · rw [if_pos hp] at h ⊢
      cases hds : ds with
      | nil => subst hds; simp [List.dropWhile] at h
      | cons e es =>
        subst hds
        rw [ih h, List.getLast?_cons_cons]
    · rw [if_neg hp] at h ⊢

theorem trimBy_head? (p : Char → Bool) (l : List Char) (c : Char)
    (h : (trimBy p l).head? = some c) : p c = false := by
  unfold trimBy at h
  rw [List.head?_reverse] at h
  by_cases hB : (l.dropWhile p).reverse.dropWhile p = []
  · rw [hB] at h
    simp at h
  · rw [dropWhile_getLast?_of_ne_nil p _ hB, List.getLast?_reverse] at h
    exact head?_dropWhile_false p l c h

theorem trimBy_getLast? (p : Char → Bool) (l : List Char) (c : Char)
    (h : (trimBy p l).getLast? = some c) : p c = false := by
  unfold trimBy at h
  rw [List.getLast?_reverse] at h
  exact head?_dropWhile_false p _ c h

theorem trimBy_eq_self (p : Char → Bool) (l : List Char)
    (h1 : ∀ c, l.head? = some c → p c = false)
    (h2 : ∀ c, l.getLast? = some c → p c = false) : trimBy p l = l := by
  unfold trimBy
  rw [dropWhile_eq_self_of_head p l h1]
  rw [dropWhile_eq_self_of_head p l.reverse
    (fun c hc => h2 c (by rwa [List.head?_reverse] at hc))]
  exact List.reverse_reverse l

theorem substChar_cases (c : Char) :
    substChar c = c ∨ substChar c ∈ ['ä', 'ö', 'Ö', 'å', 'Å', '?'] := by
  unfold substChar
  cases hfind : substTable.find? fun p => p.1 == c with
  | none => simp
  | some pr =>
    right
    have hmem := List.mem_of_find?_eq_some hfind
    simp only [Option.map, Option.getD]
    fin_cases hmem <;> decide

theorem substChar_not_ws (c : Char) (h : isRustWs c = false) :
    isRustWs (substChar c) = false := by
  rcases substChar_cases c with hc | hc
  · rwa [hc]
  · simp only [List.mem_cons, List.not_mem_nil, or_false] at hc
    rcases hc with h' | h' | h' | h' | h' | h' <;> rw [h'] <;> decide

theorem substChar_idem (c : Char) : substChar (substChar c) = substChar c := by
  rcases substChar_cases c with hc | hc
  · simp only [hc]
  · simp only [List.mem_cons, List.not_mem_nil, or_false] at hc
    rcases hc with h' | h' | h' | h' | h' | h' <;> rw [h'] <;> decide

theorem map_substChar_idem (l : List Char) :
    (l.map substChar).map substChar = l.map substChar := by
  rw [List.map_map]
  exact List.map_congr_left fun c _ => substChar_idem c

theorem getLast?_map_char (f : Char → Char) (l : List Char) :
    (l.map f).getLast? = l.getLast?.map f := by
  rw [← List.head?_reverse, ← List.map_reverse, List.head?_map, List.head?_reverse]

/-- C5 (counterexample): `clean_string` does not strip exactly one layer of
quote characters — on `""a""` the source strips all layers and yields `a`,
while the claimed one-layer pipeline yields `"a"`. -/
theorem clean_string_one_layer_cex :
    clean_string (str "\"\"a\"\"") = str "a" ∧
      cleanStringOneLayer (str "\"\"a\"\"") = str "\"a\"" ∧
      clean_string (str "\"\"a\"\"") ≠ cleanStringOneLayer (str "\"\"a\"\"") :=
  ⟨by decide, by decide, by decide⟩

/-- C5 (amended): `clean_string` strips ALL leading/trailing quote characters
(repeatedly, as `trim_matches` does), then strips surrounding whitespace, then
applies the fixed substitution table for the mis-encoded glyphs of ä, ö, Ö, å,
Å as a single pass (each source glyph to exactly one corrected glyph), then
replaces the remaining replacement glyph with a literal `?`. -/
theorem clean_string_pipeline_spec (l : List Char) :
    clean_string l = cleanStringAmended l :=
  clean_string_eq_map l

/-- C6 (counterexample): `clean_string` is not idempotent.  On ` "a" ` the
first pass only trims the whitespace (the quotes are protected by the
surrounding spaces, since quote-trimming runs before whitespace-trimming), so
the second pass strips the now-outermost quotes. -/
theorem clean_string_not_idempotent_cex :
    clean_string (clean_string (str " \"a\" ")) ≠ clean_string (str " \"a\" ") := by
  decide

/-- C6 (amended): `clean_string` is idempotent on every input whose cleaned
result does not begin or end with a quote character (the counterexample shows
the claim fails exactly when it does). -/
theorem clean_string_idem_of_no_boundary_quote (s : List Char)
    (h1 : (clean_string s).head? ≠ some '"')
    (h2 : (clean_string s).getLast? ≠ some '"') :
    clean_string (clean_string s) = clean_string s := by
  rw [clean_string_eq_map s] at h1 h2 ⊢
  rw [clean_string_eq_map (cleanStringAmended s)]
  show (trimWs (trimQuotes (cleanStringAmended s))).map substChar = cleanStringAmended s
  have hq : trimQuotes (cleanStringAmended s) = cleanStringAmended s := by
    refine trimBy_eq_self _ _ ?_ ?_
    · intro c hc
      rw [beq_eq_false_iff_ne]
      intro he
      subst he
      exact h1 hc
    · intro c hc
      rw [beq_eq_false_iff_ne]
      intro he
      subst he
      exact h2 hc
  rw [hq]
  have hw : trimWs (cleanStringAmended s) = cleanStringAmended s := by
    refine trimBy_eq_self _ _ ?_ ?_
    · intro c hc
      unfold cleanStringAmended at hc
      rw [List.head?_map] at hc
      cases hu : (trimWs (trimQuotes s)).head? with
      | none => rw [hu] at hc; simp at hc
      | some d =>
        rw [hu] at hc
        simp only [Option.map] at hc
        have hd : isRustWs d = false := trimBy_head? isRustWs (trimQuotes s) d hu
        injection hc with hc
        rw [← hc]
        exact substChar_not_ws d hd
    · intro c hc
      unfold cleanStringAmended at hc
      rw [getLast?_map_char] at hc
      cases hu : (trimWs (trimQuotes s)).getLast? with
      | none => rw [hu] at hc; simp at hc
      | some d =>
        rw [hu] at hc
        simp only [Option.map] at hc
        have hd : isRustWs d = false := trimBy_getLast? isRustWs (trimQuotes s) d hu
        injection hc with hc
        rw [← hc]
        exact substChar_not_ws d hd
  rw [hw]
  exact map_substChar_idem (trimWs (trimQuotes s))

/-- Witness for `clean_string_idem_of_no_boundary_quote` at a concrete input. -/
theorem clean_string_idem_witness :
    (clean_string (str "ab")).head? ≠ some '"' ∧
      (clean_string (str "ab")).getLast? ≠ some '"' ∧
      clean_string (clean_string (str "ab")) = clean_string (str "ab") :=
  ⟨by decide, by decide,
    clean_string_idem_of_no_boundary_quote (str "ab") (by decide) (by decide)⟩


/-! Helper lemmas about the reconciliation pass. -/

/-- All transactions of a verification sequence, flattened in file order. -/
def allTransactions (vers : List Verification) : List Transaction :=
  (vers.map Verification.transactions).flatten

/-- Sum of the amounts, among `ts`, of the transactions the reconciler posts to
index `i` of `accs` (those whose first matching account index is `i`). -/
def postSum (accs : List Account) (i : Nat) : List Transaction → ℚ
  | [] => 0
  | t :: ts =>
    (if find_account accs t.account = some i then t.amount else 0) + postSum accs i ts

/-- The fields of an account the reconciler must not touch. -/
def frameOf (a : Account) : Nat × List Char × ℚ :=
  (a.number, a.name, a.in_balance)

theorem addOutAt_getElem? (accs : List Account) (i j : Nat) (amt : ℚ) :
    (addOutAt accs i amt)[j]? =
      if i = j then
        accs[j]?.map fun a => { a with out_balance := a.out_balance + amt }
      else accs[j]? := by
  induction accs generalizing i j with
  | nil => simp [addOutAt]
  | cons a rest ih =>
    cases i with
    | zero =>
      cases j with
      | zero => simp [addOutAt]
      | succ m => simp [addOutAt]
    | succ n =>
      cases j with
      | zero => simp [addOutAt]
      | succ m => simpa [addOutAt] using ih n m

theorem addOutAt_map_number (accs : List Account) (i : Nat) (amt : ℚ) :
    (addOutAt accs i amt).map Account.number = accs.map Account.number := by
  induction accs generalizing i with
  | nil => rfl
  | cons a rest ih =>
    cases i with
    | zero => simp [addOutAt]
    | succ n => simp [addOutAt, ih n]

theorem addOutAt_map_frame (accs : List Account) (i : Nat) (amt : ℚ) :
    (addOutAt accs i amt).map frameOf = accs.map frameOf := by
  induction accs generalizing i with
  | nil => rfl
  | cons a rest ih =>
    cases i with
    | zero => simp [addOutAt, frameOf]
    | succ n => simp [addOutAt, ih n]

theorem applyTransaction_map_number (accs : List Account) (t : Transaction) :
    (applyTransaction accs t).map Account.number = accs.map Account.number := by
  unfold applyTransaction
  cases find_account accs t.account with
  | none => rfl
  | some idx => exact addOutAt_map_number accs idx t.amount

theorem applyTransaction_map_frame (accs : List Account) (t : Transaction) :
    (applyTransaction accs t).map frameOf = accs.map frameOf := by
  unfold applyTransaction
  cases find_account accs t.account with
  | none => rfl
  | some idx => exact addOutAt_map_frame accs idx t.amount

theorem find_account_congr (accs accs' : List Account) (n : Nat)
    (h : accs.map Account.number = accs'.map Account.number) :
    find_account accs n = find_account accs' n := by
  induction accs generalizing accs' with
  | nil =>
    cases accs' with
    | nil => rfl
    | cons b bs => simp at h
  | cons a rest ih =>
    cases accs' with
    | nil => simp at h
    | cons b bs =>
      simp only [List.map_cons, List.cons.injEq] at h
      obtain ⟨h1, h2⟩ := h
      simp only [find_account, h1, ih bs h2]

theorem postSum_congr (accs accs' : List Account) (i : Nat)
    (h : accs.map Account.number = accs'.map Account.number) (ts : List Transaction) :
    postSum accs i ts = postSum accs' i ts := by
  induction ts with
  | nil => rfl
  | cons t ts ih => simp [postSum, find_account_congr accs accs' t.account h, ih]

theorem applyTransaction_getElem? (accs : List Account) (t : Transaction) (i : Nat) :
    (applyTransaction accs t)[i]? = accs[i]?.map
      (fun a => { a with out_balance := a.out_balance +
        (if find_account accs t.account = some i then t.amount else 0) }) := by
  unfold applyTransaction
  cases hf : find_account accs t.account with
  | none =>
    cases hg : accs[i]? <;> simp [hg]
  | some idx =>
    rw [addOutAt_getElem?]
    by_cases hi : idx = i
    · subst hi
      simp
    · rw [if_neg hi]
      have hne : ¬ (some idx = some i) := by simpa using hi
      cases hg : accs[i]? <;> simp [hg, hne]

theorem foldl_applyTransaction_getElem? (ts : List Transaction) (accs : List Account)
    (i : Nat) :
    (ts.foldl applyTransaction accs)[i]? =
      accs[i]?.map fun a =>
        { a with out_balance := a.out_balance + postSum accs i ts } := by
  induction ts generalizing accs with
  | nil => cases hg : accs[i]? <;> simp [postSum, hg]
  | cons t ts ih =>
    rw [List.foldl_cons, ih, applyTransaction_getElem?,
      postSum_congr (applyTransaction accs t) accs i (applyTransaction_map_number accs t)]
    cases hg : accs[i]? <;> simp [hg, postSum, add_assoc]

theorem calculate_eq_foldl_aux (vers : List Verification) :
    ∀ accs : List Account,
      vers.foldl (fun accs v => v.transactions.foldl applyTransaction accs) accs =
        (allTransactions vers).foldl applyTransaction accs := by
  induction vers with
  | nil => intro accs; rfl
  | cons v vs ih =>
    intro accs
    unfold allTransactions
    rw [List.map_cons, List.flatten_cons, List.foldl_append, List.foldl_cons]
    exact ih _

theorem calc_getElem? (accounts : List Account) (vers : List Verification) (i : Nat) :
    (calculate_out_balances accounts vers)[i]? =
      accounts[i]?.map fun a =>
        { a with out_balance := a.in_balance + postSum accounts i (allTransactions vers) } := by
  unfold calculate_out_balances
  rw [calculate_eq_foldl_aux, foldl_applyTransaction_getElem?]
  have hnum : (accounts.map fun a => { a with out_balance := a.in_balance }).map
      Account.number = accounts.map Account.number := by
    rw [List.map_map]
    rfl
  rw [postSum_congr _ _ i hnum, List.getElem?_map]
  cases hg : accounts[i]? <;> simp [hg]

theorem find_account_spec (accs : List Account) (n i : Nat)
    (h : find_account accs n = some i) :
    ∃ hl : i < accs.length, (accs.get ⟨i, hl⟩).number = n ∧
      ∀ j (hj : j < accs.length), j < i → (accs.get ⟨j, hj⟩).number ≠ n := by
  induction accs generalizing i with
  | nil => simp [find_account] at h
  | cons a rest ih =>
    simp only [find_account] at h
    by_cases ha : a.number = n
    · rw [if_pos ha] at h
      injection h with h
      subst h
      exact ⟨Nat.succ_pos _, ha, fun j hj hji => absurd hji (Nat.not_lt_zero j)⟩
    · rw [if_neg ha] at h
      cases hf : find_account rest n with
      | none => rw [hf] at h; simp at h
      | some k =>
        rw [hf] at h
        simp only [Option.map] at h
        injection h with h
        subst h
        obtain ⟨hl, h1, h2⟩ := ih k hf
        refine ⟨Nat.succ_lt_succ hl, h1, ?_⟩
        intro j hj hji
        cases j with
        | zero => exact ha
        | succ m =>
          exact h2 m (Nat.lt_of_succ_lt_succ hj) (Nat.lt_of_succ_lt_succ hji)

theorem find_account_of_get (accs : List Account)
    (hnd : (accs.map Account.number).Nodup) (i : Nat) (hl : i < accs.length) :
    find_account accs ((accs.get ⟨i, hl⟩).number) = some i := by
  induction accs generalizing i with
  | nil => simp at hl
  | cons a rest ih =>
    rw [List.map_cons, List.nodup_cons] at hnd
    obtain ⟨hna, hnd⟩ := hnd
    cases i with
    | zero => simp [find_account]
    | succ m =>
      have hm : m < rest.length := Nat.lt_of_succ_lt_succ hl
      have hne : ¬ a.number = ((a :: rest).get ⟨m + 1, hl⟩).number := by
        intro he
        apply hna
        rw [he]
        exact List.mem_map.mpr ⟨rest.get ⟨m, hm⟩, List.get_mem rest m hm, rfl⟩
      simp only [find_account, if_neg hne]
      rw [show ((a :: rest).get ⟨m + 1, hl⟩) = rest.get ⟨m, hm⟩ from rfl, ih hnd m hm]
      rfl

theorem postSum_eq_filter_sum (accounts : List Account)
    (hnd : (accounts.map Account.number).Nodup) (i : Nat) (hl : i < accounts.length)
    (ts : List Transaction) :
    postSum accounts i ts =
      ((ts.filter fun t => t.account == (accounts.get ⟨i, hl⟩).number).map
        Transaction.amount).sum := by
  induction ts with
  | nil => rfl
  | cons t ts ih =>
    simp only [postSum, List.filter_cons]
    by_cases hm : t.account = (accounts.get ⟨i, hl⟩).number
    · have hfind : find_account accounts t.account = some i := by
        rw [hm]
        exact find_account_of_get accounts hnd i hl
      rw [if_pos hfind, if_pos (beq_iff_eq.mpr hm)]
      simp [ih]
    · have hfind : ¬ find_account accounts t.account = some i := by
        intro hf
        obtain ⟨hl2, h1, _⟩ := find_account_spec accounts t.account i hf
        exact hm (by rw [← h1])
      rw [if_neg hfind, if_neg (by simpa using hm)]
      simpa using ih

/-- C1 (amended): when the account numbers are pairwise distinct, every
account's closing balance after `calculate_out_balances` equals its opening
balance plus the sum of the amounts of every transaction (across all
verifications, in file order) whose account number equals that account's
number; transactions matching no account contribute nothing (they are in no
account's filter set).  Without the distinctness hypothesis the claim fails:
see the counterexample, where a duplicated account number starves the later
duplicate of its postings. -/
theorem reconciliation_closing_balance (accounts : List Account)
    (vers : List Verification)
    (hnd : (accounts.map Account.number).Nodup) (i : Nat) (hl : i < accounts.length) :
    (calculate_out_balances accounts vers)[i]? = some
      { accounts.get ⟨i, hl⟩ with
        out_balance := (accounts.get ⟨i, hl⟩).in_balance +
          (((allTransactions vers).filter fun t =>
            t.account == (accounts.get ⟨i, hl⟩).number).map Transaction.amount).sum } := by
  rw [calc_getElem?, ← postSum_eq_filter_sum accounts hnd i hl,
    List.getElem?_eq_getElem hl]
  rfl

/-- Witness for `reconciliation_closing_balance` at a concrete account list. -/
theorem reconciliation_closing_balance_witness :
    ((([⟨1910, str "K", 5, 0⟩] : List Account).map Account.number).Nodup) ∧
      (0 < ([⟨1910, str "K", 5, 0⟩] : List Account).length) ∧
      (calculate_out_balances ([⟨1910, str "K", 5, 0⟩] : List Account)
        [⟨str "A", 1, str "20240101", str "T", [⟨1910, 2⟩]⟩])[0]? =
        some ⟨1910, str "K", 5, 7⟩ := by
  refine ⟨by decide, by decide, ?_⟩
  have h := reconciliation_closing_balance ([⟨1910, str "K", 5, 0⟩] : List Account)
    [⟨str "A", 1, str "20240101", str "T", [⟨1910, 2⟩]⟩] (by decide) 0 (by decide)
  rw [h]
  decide

/-- C1 (counterexample): on a parsed file with a duplicated `#KONTO` number,
the second account with number 1910 keeps closing balance 0 although the file
contains a transaction of amount 100 on account number 1910, so closing =
opening + matching-sum fails for it (0 ≠ 0 + 100). -/
theorem reconciliation_closing_balance_cex :
    parse_sie_file [str "#KONTO 1910 \"A\"", str "#KONTO 1910 \"B\"",
        str "#VER A 1 20240101 \"T\"", str "#TRANS 1910 100"] =
      some ([⟨str "A", 1, str "20240101", str "T", [⟨1910, 100⟩]⟩],
        [⟨1910, str "A", 0, 100⟩, ⟨1910, str "B", 0, 0⟩]) ∧
      ((([⟨1910, str "B", 0, 0⟩] : List Account).map Account.out_balance) = [0]) ∧
      (((allTransactions [⟨str "A", 1, str "20240101", str "T", [⟨1910, 100⟩]⟩]).filter
          fun t => t.account == 1910).map Transaction.amount).sum = 100 ∧
      (0 : ℚ) ≠ 0 + 100 := by
  refine ⟨by decide, by decide, by decide, by decide⟩

theorem postSum_zero_of_shadowed (accounts : List Account) (i j : Nat)
    (hj : j < accounts.length) (hij : i < j)
    (hnum : (accounts.get ⟨i, Nat.lt_trans hij hj⟩).number =
      (accounts.get ⟨j, hj⟩).number) (ts : List Transaction) :
    postSum accounts j ts = 0 := by
  induction ts with
  | nil => rfl
  | cons t ts ih =>
    have hfind : ¬ find_account accounts t.account = some j := by
      intro hf
      obtain ⟨hl2, h1, h2⟩ := find_account_spec accounts t.account j hf
      exact h2 i (Nat.lt_trans hij hj) hij (hnum.trans h1)
    simp [postSum, if_neg hfind, ih]

/-- C10: `find_account` returns the earliest-created matching account: the
returned index matches the requested number and every earlier index does not;
consequently, when two accounts share a number, the later one receives no
reconciliation postings (its closing balance stays equal to its opening
balance), and on a parsed file with duplicated `#KONTO 1910` records both the
`#IB` assignment and the `#TRANS` posting hit only the first account, the
later duplicate keeping opening and closing balances 0. -/
theorem find_account_first_match_dups :
    (∀ (accs : List Account) (n i : Nat), find_account accs n = some i →
      ∃ hl : i < accs.length, (accs.get ⟨i, hl⟩).number = n ∧
        ∀ j (hj : j < accs.length), j < i → (accs.get ⟨j, hj⟩).number ≠ n)
    ∧ (∀ (accounts : List Account) (vers : List Verification) (i j : Nat)
        (hj : j < accounts.length) (hij : i < j),
        (accounts.get ⟨i, Nat.lt_trans hij hj⟩).number = (accounts.get ⟨j, hj⟩).number →
          (calculate_out_balances accounts vers)[j]? =
            some { accounts.get ⟨j, hj⟩ with
              out_balance := (accounts.get ⟨j, hj⟩).in_balance })
    ∧ parse_sie_file [str "#KONTO 1910 \"A\"", str "#KONTO 1910 \"B\"",
        str "#IB 0 1910 500", str "#VER A 1 20240101 \"T\"", str "#TRANS 1910 100"] =
      some ([⟨str "A", 1, str "20240101", str "T", [⟨1910, 100⟩]⟩],
        [⟨1910, str "A", 500, 600⟩, ⟨1910, str "B", 0, 0⟩]) := by
  refine ⟨find_account_spec, ?_, by decide⟩
  intro accounts vers i j hj hij hnum
  rw [calc_getElem?, List.getElem?_eq_getElem hj]
  rw [show accounts[j] = accounts.get ⟨j, hj⟩ from rfl]
  rw [postSum_zero_of_shadowed accounts i j hj hij hnum]
  simp

/-- Witness for `find_account_first_match_dups` at a concrete duplicate list. -/
theorem find_account_first_match_dups_witness :
    find_account [⟨1910, str "A", 0, 0⟩, ⟨1910, str "B", 0, 0⟩] 1910 = some 0 ∧
      (∃ hl : 0 < ([⟨1910, str "A", 0, 0⟩, ⟨1910, str "B", 0, 0⟩] : List Account).length,
        (([⟨1910, str "A", 0, 0⟩, ⟨1910, str "B", 0, 0⟩] : List Account).get
          ⟨0, hl⟩).number = 1910 ∧
        ∀ j (hj : j < ([⟨1910, str "A", 0, 0⟩, ⟨1910, str "B", 0, 0⟩] :
            List Account).length), j < 0 →
          (([⟨1910, str "A", 0, 0⟩, ⟨1910, str "B", 0, 0⟩] : List Account).get
            ⟨j, hj⟩).number ≠ 1910) :=
  ⟨by decide,
    find_account_first_match_dups.1 [⟨1910, str "A", 0, 0⟩, ⟨1910, str "B", 0, 0⟩]
      1910 0 (by decide)⟩

theorem foldl_applyTransaction_map_frame (ts : List Transaction) (accs : List Account) :
    (ts.foldl applyTransaction accs).map frameOf = accs.map frameOf := by
  induction ts generalizing accs with
  | nil => rfl
  | cons t ts ih => rw [List.foldl_cons, ih, applyTransaction_map_frame]

theorem calculate_map_frame (accounts : List Account) (vers : List Verification) :
    (calculate_out_balances accounts vers).map frameOf = accounts.map frameOf := by
  unfold calculate_out_balances
  rw [calculate_eq_foldl_aux, foldl_applyTransaction_map_frame, List.map_map]
  rfl

theorem setInAt_map_out (accs : List Account) (i : Nat) (amt : ℚ) :
    (setInAt accs i amt).map Account.out_balance = accs.map Account.out_balance := by
  induction accs generalizing i with
  | nil => rfl
  | cons a rest ih =>
    cases i with
    | zero => simp [setInAt]
    | succ n => simp [setInAt, ih n]

theorem processLine_accounts (st st' : ParseState) (line : List Char)
    (h : processLine st line = some st') :
    st'.accounts = st.accounts ∨
      (∃ i amt, st'.accounts = setInAt st.accounts i amt) ∨
      (∃ num name, st'.accounts = st.accounts ++ [⟨num, name, 0, 0⟩]) := by
  unfold processLine at h
  split at h
  · -- VER branch
    cases hcv : st.current_ver with
    | some v =>
      rw [hcv] at h
      simp only [Option.bind_eq_bind, Option.bind_eq_some, Option.some.injEq] at h
      obtain ⟨p1, hp1, p2, hp2, p3, hp3, p4, hp4, h⟩ := h
      left
      rw [← h]
    | none =>
      rw [hcv] at h
      simp only [Option.bind_eq_bind, Option.bind_eq_some, Option.some.injEq] at h
      obtain ⟨p1, hp1, p2, hp2, p3, hp3, p4, hp4, h⟩ := h
      left
      rw [← h]
  · split at h
    · -- IB branch
      simp only [Option.bind_eq_bind, Option.bind_eq_some] at h
      obtain ⟨p1, hp1, p2, hp2, p3, hp3, h⟩ := h
      split at h
      · cases hfa : find_account st.accounts (parseU32D p2) with
        | some idx =>
          rw [hfa] at h
          simp only [Option.some.injEq] at h
          right
          left
          exact ⟨idx, parseF64D p3, by rw [← h]⟩
        | none =>
          rw [hfa] at h
          simp only [Option.some.injEq] at h
          left
          rw [← h]
      · simp only [Option.some.injEq] at h
        left
        rw [← h]
    · split at h
      · -- KONTO branch
        simp only [Option.bind_eq_bind, Option.bind_eq_some, Option.some.injEq] at h
        obtain ⟨p2, hp2, p1, hp1, h⟩ := h
        right
        right
        refine ⟨parseU32D p1, clean_string p2, ?_⟩
        rw [← h]
      · split at h
        · -- TRANS branch
          cases hcv : st.current_ver with
          | some v =>
            rw [hcv] at h
            simp only [Option.bind_eq_bind, Option.bind_eq_some, Option.some.injEq] at h
            obtain ⟨p1, hp1, plast, hplast, h⟩ := h
            left
            rw [← h]
          | none =>
            rw [hcv] at h
            simp only [Option.some.injEq] at h
            left
            rw [← h]
        · -- unrecognized keyword
          simp only [Option.some.injEq] at h
          left
          rw [← h]

theorem mem_out0_of_map_out (accs accs' : List Account)
    (hmap : accs'.map Account.out_balance = accs.map Account.out_balance)
    (hinv : ∀ a ∈ accs, a.out_balance = 0) : ∀ a ∈ accs', a.out_balance = 0 := by
  intro a ha
  have hm : a.out_balance ∈ accs'.map Account.out_balance :=
    List.mem_map.mpr ⟨a, ha, rfl⟩
  rw [hmap] at hm
  obtain ⟨b, hb, he⟩ := List.mem_map.mp hm
  rw [← he]
  exact hinv b hb

theorem processLine_out0 (st st' : ParseState) (line : List Char)
    (hinv : ∀ a ∈ st.accounts, a.out_balance = 0)
    (h : processLine st line = some st') : ∀ a ∈ st'.accounts, a.out_balance = 0 := by
  rcases processLine_accounts st st' line h with he | ⟨i, amt, he⟩ | ⟨num, name, he⟩
  · rw [he]
    exact hinv
  · refine mem_out0_of_map_out st.accounts st'.accounts ?_ hinv
    rw [he, setInAt_map_out]
  · intro a ha
    rw [he] at ha
    rcases List.mem_append.mp ha with hm | hm
    · exact hinv a hm
    · simp only [List.mem_singleton] at hm
      rw [hm]

theorem foldlM_out0 (lines : List (List Char)) :
    ∀ st st', (∀ a ∈ st.accounts, a.out_balance = 0) →
      lines.foldlM processLine st = some st' → ∀ a ∈ st'.accounts, a.out_balance = 0 := by
  induction lines with
  | nil =>
    intro st st' hinv h
    simp only [List.foldlM_nil, pure, Option.some.injEq] at h
    rw [← h]
    exact hinv
  | cons l ls ih =>
    intro st st' hinv h
    rw [List.foldlM_cons] at h
    cases hp : processLine st l with
    | none => rw [hp] at h; simp at h
    | some st1 =>
      rw [hp] at h
      simp only [Option.bind_eq_bind, Option.some_bind] at h
      exact ih st1 st' (processLine_out0 st st1 l hinv hp) h

/-- C9: the reconciliation pass mutates only the closing-balance field: the
number, name and opening balance of every account (in order) are unchanged by
`calculate_out_balances`; the verification sequence is passed through the
reconciliation stage unchanged; and at the end of record parsing, before the
reconciler runs, every account's closing balance is still 0 (only the
reconciler writes it). -/
theorem reconciler_frame :
    (∀ (accounts : List Account) (vers : List Verification),
        (calculate_out_balances accounts vers).map frameOf = accounts.map frameOf)
    ∧ (∀ (lines : List (List Char)) (vers : List Verification) (accs : List Account),
        parse_records lines = some (vers, accs) →
          parse_sie_file lines = some (vers, calculate_out_balances accs vers))
    ∧ (∀ (lines : List (List Char)) (vers : List Verification) (accs : List Account),
        parse_records lines = some (vers, accs) → ∀ a ∈ accs, a.out_balance = 0) := by
  refine ⟨calculate_map_frame, ?_, ?_⟩
  · intro lines vers accs h
    simp [parse_sie_file, h]
  · intro lines vers accs h
    unfold parse_records at h
    cases hf : lines.foldlM processLine initState with
    | none => rw [hf] at h; simp at h
    | some stf =>
      rw [hf] at h
      simp only [Option.bind_eq_bind, Option.some_bind, Option.some.injEq,
        Prod.mk.injEq] at h
      obtain ⟨h1, h2⟩ := h
      rw [← h2]
      exact foldlM_out0 lines initState stf (by simp [initState]) hf

/-- Witness for `reconciler_frame` at a concrete one-line file. -/
theorem reconciler_frame_witness :
    parse_records [str "#KONTO 1910 \"K\""] = some ([], [⟨1910, str "K", 0, 0⟩]) ∧
      parse_sie_file [str "#KONTO 1910 \"K\""] =
        some ([], calculate_out_balances [⟨1910, str "K", 0, 0⟩] []) ∧
      (∀ a ∈ ([⟨1910, str "K", 0, 0⟩] : List Account), a.out_balance = 0) :=
  ⟨by decide,
    reconciler_frame.2.1 [str "#KONTO 1910 \"K\""] [] [⟨1910, str "K", 0, 0⟩]
      (by decide),
    reconciler_frame.2.2 [str "#KONTO 1910 \"K\""] [] [⟨1910, str "K", 0, 0⟩]
      (by decide)⟩

/-- C8: `#IB 1 1910 500` (non-zero fiscal-year offset) leaves account 1910's
opening balance at its default 0, `#IB 0 1910 500` sets it to 500, and an
`#IB 0` record whose account number matches no account changes nothing (the
anomaly is only reported, not acted on). -/
theorem ib_offset_behaviour :
    parse_sie_file [str "#KONTO 1910 \"Kassa\"", str "#IB 1 1910 500"] =
      some ([], [⟨1910, str "Kassa", 0, 0⟩]) ∧
      parse_sie_file [str "#KONTO 1910 \"Kassa\"", str "#IB 0 1910 500"] =
        some ([], [⟨1910, str "Kassa", 500, 500⟩]) ∧
      parse_sie_file [str "#KONTO 1910 \"Kassa\"", str "#IB 0 9999 500"] =
        some ([], [⟨1910, str "Kassa", 0, 0⟩]) :=
  ⟨by decide, by decide, by decide⟩

theorem str_VER : str "#VER" = ['#', 'V', 'E', 'R'] := rfl

theorem str_IB : str "#IB" = ['#', 'I', 'B'] := rfl

theorem str_KONTO : str "#KONTO" = ['#', 'K', 'O', 'N', 'T', 'O'] := rfl

theorem str_TRANS : str "#TRANS" = ['#', 'T', 'R', 'A', 'N', 'S'] := rfl

theorem trans_kw_excl (l : List Char) (h : lineStarts l (str "#TRANS") = true) :
    lineStarts l (str "#VER") = false ∧ lineStarts l (str "#IB") = false ∧
      lineStarts l (str "#KONTO") = false := by
  rw [str_TRANS] at h
  rw [str_VER, str_IB, str_KONTO]
  match l with
  | [] => simp [lineStarts] at h
  | [c] => simp [lineStarts] at h
  | c0 :: c1 :: rest =>
    simp only [lineStarts, Bool.and_eq_true, beq_iff_eq] at h
    obtain ⟨h0, h1, _⟩ := h
    subst h0
    subst h1
    refine ⟨?_, ?_, ?_⟩ <;> simp [lineStarts]

/-- C7: a TRANS record encountered while no verification is open is silently
dropped, with no effect on the parse state and no error; in particular a
`#TRANS` line before any `#VER` line produces no transaction anywhere in the
output. -/
theorem trans_without_open_ver :
    (∀ (st : ParseState) (line : List Char), st.current_ver = none →
        lineStarts line (str "#TRANS") = true → processLine st line = some st)
    ∧ parse_sie_file [str "#TRANS 1910 1000"] = some ([], [])
    ∧ parse_records [str "#TRANS 1910 1000", str "#VER A 1 20240101 \"x\""] =
        some ([⟨str "A", 1, str "20240101", str "x", []⟩], []) := by
  refine ⟨?_, by decide, by decide⟩
  intro st line hcv hkw
  obtain ⟨hv, hib, hk⟩ := trans_kw_excl line hkw
  simp [processLine, hv, hib, hk, hkw, hcv]

/-- Witness for `trans_without_open_ver` at the initial state. -/
theorem trans_without_open_ver_witness :
    initState.current_ver = none ∧
      lineStarts (str "#TRANS 1910 1000") (str "#TRANS") = true ∧
      processLine initState (str "#TRANS 1910 1000") = some initState :=
  ⟨rfl, by decide,
    trans_without_open_ver.1 initState (str "#TRANS 1910 1000") rfl (by decide)⟩

/-- C3: when a VER line is met while a verification is open, the open one is
finalized (appended to the output sequence with all its accumulated
transactions) before the new one is opened (the new current verification has
an empty transaction list); concretely, for `#VER A 1 20240101 "Text"`,
`#TRANS 1910 1000`, then a second `#VER` line, the first verification in the
output contains exactly one transaction with account 1910 and amount 1000. -/
theorem ver_finalizes_open_verification :
    (∀ (st : ParseState) (v : Verification) (line : List Char) (st' : ParseState),
        st.current_ver = some v → lineStarts line (str "#VER") = true →
        processLine st line = some st' →
          st'.verifications = st.verifications ++ [v] ∧
            ∃ w, st'.current_ver = some w ∧ w.transactions = [])
    ∧ parse_records [str "#VER A 1 20240101 \"Text\"", str "#TRANS 1910 1000",
        str "#VER B 2 20240102 \"U\""] =
        some ([⟨str "A", 1, str "20240101", str "Text", [⟨1910, 1000⟩]⟩,
          ⟨str "B", 2, str "20240102", str "U", []⟩], []) := by
  refine ⟨?_, by decide⟩
  intro st v line st' hcv hkw h
  unfold processLine at h
  rw [hkw] at h
  rw [hcv] at h
  simp only [if_true] at h
  simp only [Option.bind_eq_bind, Option.bind_eq_some, Option.some.injEq] at h
  obtain ⟨p1, hp1, p2, hp2, p3, hp3, p4, hp4, h⟩ := h
  refine ⟨by rw [← h], ⟨_, by rw [← h], rfl⟩⟩

/-- Witness for `ver_finalizes_open_verification` at a concrete open state. -/
theorem ver_finalizes_open_verification_witness :
    (⟨[], [], some ⟨str "A", 1, str "D", str "T", []⟩⟩ : ParseState).current_ver =
        some ⟨str "A", 1, str "D", str "T", []⟩ ∧
      lineStarts (str "#VER B 2 20240102 \"U\"") (str "#VER") = true ∧
      processLine (⟨[], [], some ⟨str "A", 1, str "D", str "T", []⟩⟩ : ParseState)
          (str "#VER B 2 20240102 \"U\"") =
        some ⟨[⟨str "A", 1, str "D", str "T", []⟩], [],
          some ⟨str "B", 2, str "20240102", str "U", []⟩⟩ ∧
      (⟨[⟨str "A", 1, str "D", str "T", []⟩], [],
          some ⟨str "B", 2, str "20240102", str "U", []⟩⟩ : ParseState).verifications =
        ([] : List Verification) ++ [⟨str "A", 1, str "D", str "T", []⟩] ∧
      (∃ w, (⟨[⟨str "A", 1, str "D", str "T", []⟩], [],
          some ⟨str "B", 2, str "20240102", str "U", []⟩⟩ :
            ParseState).current_ver = some w ∧ w.transactions = []) :=
  ⟨rfl, by decide, by decide,
    (ver_finalizes_open_verification.1 ⟨[], [], some ⟨str "A", 1, str "D", str "T", []⟩⟩
      ⟨str "A", 1, str "D", str "T", []⟩ (str "#VER B 2 20240102 \"U\"")
      ⟨[⟨str "A", 1, str "D", str "T", []⟩], [],
        some ⟨str "B", 2, str "20240102", str "U", []⟩⟩ rfl (by decide) (by decide)).1,
    (ver_finalizes_open_verification.1 ⟨[], [], some ⟨str "A", 1, str "D", str "T", []⟩⟩
      ⟨str "A", 1, str "D", str "T", []⟩ (str "#VER B 2 20240102 \"U\"")
      ⟨[⟨str "A", 1, str "D", str "T", []⟩], [],
        some ⟨str "B", 2, str "20240102", str "U", []⟩⟩ rfl (by decide) (by decide)).2⟩

theorem processLine_total (st : ParseState) (line : List Char)
    (h : lineArityOK line = true) : ∃ st', processLine st line = some st' := by
  unfold lineArityOK at h
  by_cases hv : lineStarts line (str "#VER") = true
  · simp only [hv, if_true, decide_eq_true_eq] at h
    obtain ⟨x1, e1⟩ : ∃ x, (parse_line line)[1]? = some x :=
      ⟨_, List.getElem?_eq_getElem (by omega)⟩
    obtain ⟨x2, e2⟩ : ∃ x, (parse_line line)[2]? = some x :=
      ⟨_, List.getElem?_eq_getElem (by omega)⟩
    obtain ⟨x3, e3⟩ : ∃ x, (parse_line line)[3]? = some x :=
      ⟨_, List.getElem?_eq_getElem (by omega)⟩
    obtain ⟨x4, e4⟩ : ∃ x, (parse_line line)[4]? = some x :=
      ⟨_, List.getElem?_eq_getElem (by omega)⟩
    simp only [processLine, hv, e1, e2, e3, e4, Option.bind_eq_bind, Option.some_bind]
    exact ⟨_, rfl⟩
  · rw [if_neg hv] at h
    simp only [Bool.not_eq_true] at hv
    by_cases hib : lineStarts line (str "#IB") = true
    · simp only [hib, if_true, decide_eq_true_eq] at h
      obtain ⟨x1, e1⟩ : ∃ x, (parse_line line)[1]? = some x :=
        ⟨_, List.getElem?_eq_getElem (by omega)⟩
      obtain ⟨x2, e2⟩ : ∃ x, (parse_line line)[2]? = some x :=
        ⟨_, List.getElem?_eq_getElem (by omega)⟩
      obtain ⟨x3, e3⟩ : ∃ x, (parse_line line)[3]? = some x :=
        ⟨_, List.getElem?_eq_getElem (by omega)⟩
      by_cases hy : parseU32D x1 = 0
      · cases hfa : find_account st.accounts (parseU32D x2) with
        | some idx =>
          simp only [processLine, hv, hib, e1, e2, e3, Option.bind_eq_bind, Option.some_bind, hy, hfa, if_true]
          exact ⟨_, rfl⟩
        | none =>
          simp only [processLine, hv, hib, e1, e2, e3, Option.bind_eq_bind, Option.some_bind, hy, hfa, if_true]
          exact ⟨_, rfl⟩
      · simp only [processLine, hv, hib, e1, e2, e3, Option.bind_eq_bind, Option.some_bind, if_neg hy]
        exact ⟨_, rfl⟩
    · rw [if_neg hib] at h
      simp only [Bool.not_eq_true] at hib
      by_cases hk : lineStarts line (str "#KONTO") = true
      · simp only [hk, if_true, decide_eq_true_eq] at h
        obtain ⟨x1, e1⟩ : ∃ x, (parse_line line)[1]? = some x :=
          ⟨_, List.getElem?_eq_getElem (by omega)⟩
        obtain ⟨x2, e2⟩ : ∃ x, (parse_line line)[2]? = some x :=
          ⟨_, List.getElem?_eq_getElem (by omega)⟩
        simp only [processLine, hv, hib, hk, e1, e2, Option.bind_eq_bind, Option.some_bind]
        exact ⟨_, rfl⟩
      · rw [if_neg hk] at h
        simp only [Bool.not_eq_true] at hk
        by_cases ht : lineStarts line (str "#TRANS") = true
        · simp only [ht, if_true, decide_eq_true_eq] at h
          cases hcv : st.current_ver with
          | none =>
            simp only [processLine, hv, hib, hk, ht, hcv]
            exact ⟨st, rfl⟩
          | some v =>
            obtain ⟨x1, e1⟩ : ∃ x, (parse_line line)[1]? = some x :=
              ⟨_, List.getElem?_eq_getElem (by omega)⟩
            obtain ⟨xl, el⟩ : ∃ x, (parse_line line).getLast? = some x :=
              Option.isSome_iff_exists.mp
                (List.getLast?_isSome.mpr (parse_line_ne_nil line))
            simp only [processLine, hv, hib, hk, ht, hcv, e1, el, Option.bind_eq_bind, Option.some_bind]
            exact ⟨_, rfl⟩
        · simp only [Bool.not_eq_true] at ht
          simp only [processLine, hv, hib, hk, ht]
          exact ⟨st, rfl⟩

theorem foldlM_total (lines : List (List Char)) :
    ∀ st, (∀ l ∈ lines, lineArityOK l = true) →
      ∃ st', lines.foldlM processLine st = some st' := by
  induction lines with
  | nil => intro st _; exact ⟨st, rfl⟩
  | cons l ls ih =>
    intro st h
    obtain ⟨st1, h1⟩ := processLine_total st l (h l (by simp))
    obtain ⟨st', h2⟩ := ih st1 (fun x hx => h x (by simp [hx]))
    refine ⟨st', ?_⟩
    rw [List.foldlM_cons, h1]
    simpa using h2

/-- C2 (amended): the record parser never aborts on a line whose keyword is
unrecognized (such a line is ignored entirely), and never aborts at all
provided every line carries at least the fields its handler indexes (5 for
`#VER`-prefixed lines, 4 for `#IB`, 3 for `#KONTO`, 2 for `#TRANS`); numeric
fields that fail to parse default to 0 / 0.0 by construction (`parseU32D`,
`parseF64D`), and out-of-context TRANS lines are dropped silently.  The
original claim is false: a record line with fewer fields than its grammar
expects (for example a bare `#VER`) panics with an index out of bounds — see
the counterexample. -/
theorem parse_never_panics_with_arity :
    (∀ lines : List (List Char), (∀ l ∈ lines, lineArityOK l = true) →
        ∃ r, parse_sie_file lines = some r)
    ∧ (∀ (st : ParseState) (line : List Char),
        lineStarts line (str "#VER") = false → lineStarts line (str "#IB") = false →
        lineStarts line (str "#KONTO") = false →
        lineStarts line (str "#TRANS") = false → processLine st line = some st) := by
  constructor
  · intro lines h
    obtain ⟨stf, hf⟩ := foldlM_total lines initState h
    have hr : ∃ r, parse_records lines = some r := by
      unfold parse_records
      rw [hf]
      exact ⟨_, rfl⟩
    obtain ⟨⟨vs, accs⟩, hr⟩ := hr
    refine ⟨(vs, calculate_out_balances accs vs), ?_⟩
    unfold parse_sie_file
    rw [hr]
    rfl
  · intro st line h1 h2 h3 h4
    simp [processLine, h1, h2, h3, h4]

/-- Witness for `parse_never_panics_with_arity` at a concrete file. -/
theorem parse_never_panics_with_arity_witness :
    (∀ l ∈ [str "#KONTO 1910 \"K\""], lineArityOK l = true) ∧
      ∃ r, parse_sie_file [str "#KONTO 1910 \"K\""] = some r :=
  ⟨by decide, parse_never_panics_with_arity.1 [str "#KONTO 1910 \"K\""] (by decide)⟩

/-- C2 (counterexample): the record parser as implemented panics on the bare
line `#VER` — `parts[1]` is indexed while `parse_line "#VER"` has one field —
so the parse of that one-line file aborts. -/
theorem parse_panics_on_short_line :
    parse_sie_file [str "#VER"] = none := by decide
